import Mathlib

/-!
Verification development for `flaclink` (src/main.go): a shallow Lean
embedding of the album detection, fingerprint registry and hardlink
replication code, together with theorems about the claims of the spec.
-/

namespace Flaclink

/-- A node of a filesystem tree as seen by the program.  A directory
carries a readability flag: `readDir` on an unreadable directory fails,
modelling `ioutil.ReadDir` returning an error.  The order of a
directory's child list is the listing order `ioutil.ReadDir` returns. -/
inductive Entry : Type where
  | file : String → Entry
  | dir : String → Bool → List Entry → Entry

/-- `ioutil.ReadDir`: the child listing of a readable directory; fails
(`none`, i.e. a non-nil Go error) on a file or an unreadable directory. -/
def readDir : Entry → Option (List Entry)
  | .file _ => none
  | .dir _ false _ => none
  | .dir _ true cs => some cs

/-- The base name of an entry (`file.Name()` / `filepath.Base`). -/
def Entry.name : Entry → String
  | .file n => n
  | .dir n _ _ => n

/-- `file.IsDir()`. -/
def Entry.isDir : Entry → Bool
  | .file _ => false
  | .dir _ _ _ => true

/-- Helper for `extname`: the suffix of the character list starting at
its final dot, if any. -/
def extAux : List Char → Option (List Char)
  | [] => none
  | c :: cs =>
    match extAux cs with
    | some e => some e
    | none => if c = '.' then some (c :: cs) else none

/-- `filepath.Ext` applied to a path whose last element is `s`: the
suffix beginning at the final dot of the base name, `""` if there is no
dot. -/
def extname (s : String) : String :=
  match extAux s.data with
  | some e => String.mk e
  | none => ""

mutual
/-- `isAlbum` (src/main.go lines 81-97).  `ReadDir` failure (a file, or
an unreadable directory) yields `false`; otherwise the children are
scanned in listing order by `isAlbumScan`. -/
def isAlbum : Entry → Bool
  | .file _ => false
  | .dir _ false _ => false
  | .dir _ true cs => isAlbumScan cs

/-- The `for` loop of `isAlbum`: the first directory entry causes
`return isAlbum(path)`; a file whose extension is `.flac` causes
`return true`; an exhausted listing yields `false`. -/
def isAlbumScan : List Entry → Bool
  | [] => false
  | .file m :: rest => if extname m = ".flac" then true else isAlbumScan rest
  | .dir m r cs :: _ => isAlbum (.dir m r cs)
end

/-- The transient `Album` value (src/main.go lines 29-32). -/
structure Album : Type where
  DirName : String
  Contents : List String

/-- `newAlbum` (src/main.go lines 100-107): `DirName` is the base name;
the `ReadDir` error is discarded (`contents, _ := ...`), so an unreadable
directory yields an empty `Contents`. -/
def newAlbum (e : Entry) : Album :=
  { DirName := e.name
    Contents := ((readDir e).getD []).map Entry.name }

/-! ### The fingerprint encoding

The program fingerprints an album with `gob.NewEncoder(..).Encode(album.Contents)`,
a deterministic, order-preserving, length-prefixed byte encoding of the
`[]string` value provided by the external `encoding/gob` library.
Modelled from the spec: "a deterministic, order-preserving encoding of
`contents` (e.g., a sequence of length-prefixed strings) ... any
encoding preserving exact strings and order is acceptable".  We use a
gob-style little-endian base-128 varint for every length and code point. -/

/-- Variable-length base-128 encoding of a natural number (each emitted
value is a byte, i.e. `< 256`); bytes `≥ 128` mark a continuation. -/
def encNat (n : Nat) : List Nat :=
  if n < 128 then [n] else (n % 128 + 128) :: encNat (n / 128)
  decreasing_by exact Nat.div_lt_self (by omega) (by omega)

/-- Concatenation of the images of `f`, in order. -/
def concatMap (f : α → List β) : List α → List β
  | [] => []
  | a :: as => f a ++ concatMap f as

/-- The code points of a string, in order. -/
def strCodes (s : String) : List Nat :=
  s.data.map Char.toNat

/-- Length-prefixed encoding of one string: its character count followed
by its encoded code points. -/
def encString (s : String) : List Nat :=
  encNat (strCodes s).length ++ concatMap encNat (strCodes s)

/-- The fingerprint of an album's `Contents`: the sequence length
followed by each string, length-prefixed, in order (the model of the gob
encoding used as registry key in `inDb`/`addToDb`). -/
def fingerprint (l : List String) : List Nat :=
  encNat l.length ++ concatMap encString l

/-! ### A decoder for the fingerprint encoding

Used only to prove that the encoding is injective: every byte sequence
produced by `fingerprint` decodes back to the code-point lists of the
encoded strings. -/

/-- Decode one varint; returns the value and the remaining bytes. -/
def decNat : List Nat → Option (Nat × List Nat)
  | [] => none
  | b :: rest =>
    if b < 128 then some (b, rest)
    else
      match decNat rest with
      | none => none
      | some (m, rest2) => some (b - 128 + 128 * m, rest2)

/-- Decode a given number of varints. -/
def decNats : Nat → List Nat → Option (List Nat × List Nat)
  | 0, bs => some ([], bs)
  | k + 1, bs =>
    match decNat bs with
    | none => none
    | some (n, bs1) =>
      match decNats k bs1 with
      | none => none
      | some (ns, bs2) => some (n :: ns, bs2)

/-- Decode one length-prefixed string (as its code-point list). -/
def decStr (bs : List Nat) : Option (List Nat × List Nat) :=
  match decNat bs with
  | none => none
  | some (k, bs1) => decNats k bs1

/-- Decode a given number of length-prefixed strings. -/
def decStrs : Nat → List Nat → Option (List (List Nat) × List Nat)
  | 0, bs => some ([], bs)
  | k + 1, bs =>
    match decStr bs with
    | none => none
    | some (cs, bs1) =>
      match decStrs k bs1 with
      | none => none
      | some (css, bs2) => some (cs :: css, bs2)

/-- Decode a whole fingerprint back to the code-point lists of the
encoded strings. -/
def decodeFp (bs : List Nat) : Option (List (List Nat)) :=
  match decNat bs with
  | none => none
  | some (k, bs1) =>
    match decStrs k bs1 with
    | none => none
    | some (css, bs2) => if bs2 = [] then some css else none

theorem decNat_encNat (n : Nat) (rest : List Nat) :
    decNat (encNat n ++ rest) = some (n, rest) := by
  induction n using Nat.strong_induction_on with
  | _ n ih =>
    by_cases h : n < 128
    · rw [encNat]
      simp [h, decNat]
    · rw [encNat]
      have hd : n / 128 < n := Nat.div_lt_self (by omega) (by omega)
      simp only [if_neg h, List.cons_append, decNat, ih (n / 128) hd]
      have hb : ¬ n % 128 + 128 < 128 := by omega
      simp only [if_neg hb, Option.some.injEq, Prod.mk.injEq, and_true]
      omega

theorem decNats_concatMap (ns : List Nat) (rest : List Nat) :
    decNats ns.length (concatMap encNat ns ++ rest) = some (ns, rest) := by
  induction ns generalizing rest with
  | nil => simp [concatMap, decNats]
  | cons n ns ih =>
    simp [concatMap, decNats, List.append_assoc, decNat_encNat, ih]

theorem decStr_encString (s : String) (rest : List Nat) :
    decStr (encString s ++ rest) = some (strCodes s, rest) := by
  simp [encString, decStr, List.append_assoc, decNat_encNat, decNats_concatMap]

theorem decStrs_concatMap (l : List String) (rest : List Nat) :
    decStrs l.length (concatMap encString l ++ rest) = some (l.map strCodes, rest) := by
  induction l generalizing rest with
  | nil => simp [concatMap, decStrs]
  | cons s l ih =>
    simp [concatMap, decStrs, List.append_assoc, decStr_encString, ih]

theorem decodeFp_fingerprint (l : List String) :
    decodeFp (fingerprint l) = some (l.map strCodes) := by
  have h : fingerprint l = encNat l.length ++ (concatMap encString l ++ []) := by
    simp [fingerprint]
  have h2 : decStrs l.length (concatMap encString l) = some (l.map strCodes, []) := by
    have h3 := decStrs_concatMap l []
    simpa using h3
  rw [decodeFp, h, decNat_encNat]
  simp [h2]

theorem charToNat_inj {a b : Char} (h : a.toNat = b.toNat) : a = b := by
  apply Char.eq_of_val_eq
  exact UInt32.ext h

theorem strCodes_inj {s1 s2 : String} (h : strCodes s1 = strCodes s2) : s1 = s2 := by
  apply String.ext
  exact List.map_injective_iff.mpr (fun a b hab => charToNat_inj hab) h

theorem fingerprint_inj {l1 l2 : List String}
    (h : fingerprint l1 = fingerprint l2) : l1 = l2 := by
  have h2 : decodeFp (fingerprint l1) = decodeFp (fingerprint l2) := by rw [h]
  rw [decodeFp_fingerprint, decodeFp_fingerprint] at h2
  exact List.map_injective_iff.mpr (fun a b hab => strCodes_inj hab)
    (Option.some.inj h2)

/-! ### The registry store

`bolt` exposes a single on-disk ordered key-value collection (bucket
`albums`); `Get` returns the value bytes for a key or nil, `Put`
inserts or overwrites.  We model the bucket's contents as an
association list with unique keys. -/

/-- The contents of the `albums` bucket: fingerprint key ↦ stored album
directory name. -/
abbrev Store := List (List Nat × String)

/-- `bucket.Get`: the value stored at a key, if any. -/
def storeGet : Store → List Nat → Option String
  | [], _ => none
  | (k2, v) :: rest, k => if k2 = k then some v else storeGet rest k

/-- `bucket.Put`: overwrite the value at an existing key, else append a
new entry. -/
def storePut : Store → List Nat → String → Store
  | [], k, v => [(k, v)]
  | (k2, v2) :: rest, k, v =>
    if k2 = k then (k, v) :: rest else (k2, v2) :: storePut rest k v

/-- The keys of the store, in order. -/
def storeKeys (s : Store) : List (List Nat) :=
  s.map Prod.fst

/-- `bolt.Open`: a handle over the store file's current contents. -/
def openDb (file : Store) : Store := file

/-- `db.Close()`: the handle's committed contents persist as the store
file's contents. -/
def closeDb (handle : Store) : Store := handle

/-- `inDb` (src/main.go lines 110-125): true iff `Get` on the
gob-encoded `Contents` returns a non-nil value. -/
def inDb (a : Album) (db : Store) : Bool :=
  (storeGet db (fingerprint a.Contents)).isSome

/-- `addToDb` (src/main.go lines 128-136): `Put` the gob-encoded
`Contents` as key with the album directory name as value. -/
def addToDb (a : Album) (db : Store) : Store :=
  storePut db (fingerprint a.Contents) a.DirName

/-! ### Error paths of `inDb` and `addToDb`

`encoding/gob` is an external library whose `Encode` returns an error
value; the two registry operations handle that error differently:
`inDb` calls `log.Fatalf` (process abort, modelled as `none`) while
`addToDb` returns the error before touching the store.  The versions
below make that control flow explicit over an arbitrary encoder. -/

/-- `inDb` with its gob-encoder call abstracted: an encoding error hits
`log.Fatalf` and no answer is produced (src/main.go lines 111-114). -/
def inDbE (enc : List String → Except String (List Nat)) (a : Album)
    (db : Store) : Option Bool :=
  match enc a.Contents with
  | .error _ => none
  | .ok k => some (storeGet db k).isSome

/-- `addToDb` with its gob-encoder call abstracted: an encoding error is
returned before any `Put` runs (src/main.go lines 129-132). -/
def addToDbE (enc : List String → Except String (List Nat)) (a : Album)
    (db : Store) : Except String Store :=
  match enc a.Contents with
  | .error e => .error e
  | .ok k => .ok (storePut db k a.DirName)

/-! ### Store lemmas -/

theorem storeGet_storePut_self (s : Store) (k : List Nat) (v : String) :
    storeGet (storePut s k v) k = some v := by
  induction s with
  | nil => simp [storePut, storeGet]
  | cons p rest ih =>
    obtain ⟨k2, v2⟩ := p
    by_cases h : k2 = k
    · simp [storePut, storeGet, h]
    · simp [storePut, storeGet, h, ih]

theorem storeGet_storePut_other (s : Store) (k k2 : List Nat) (v : String)
    (h : k2 ≠ k) : storeGet (storePut s k v) k2 = storeGet s k2 := by
  have h2 : ¬ k = k2 := fun hh => h hh.symm
  induction s with
  | nil => simp [storePut, storeGet, h2]
  | cons p rest ih =>
    obtain ⟨k3, v3⟩ := p
    by_cases h3 : k3 = k
    · have h4 : ¬ k3 = k2 := h3 ▸ h2
      simp [storePut, storeGet, h3, h2, h4]
    · by_cases h4 : k3 = k2
      · simp [storePut, storeGet, h3, h4, h]
      · simp [storePut, storeGet, h3, h4, ih]

theorem storeKeys_mem_storePut (s : Store) (k k2 : List Nat) (v : String)
    (h : k2 ∈ storeKeys (storePut s k v)) : k2 = k ∨ k2 ∈ storeKeys s := by
  induction s with
  | nil => simpa [storePut, storeKeys] using h
  | cons p rest ih =>
    obtain ⟨k3, v3⟩ := p
    by_cases h3 : k3 = k
    · subst h3
      simpa [storePut, storeKeys] using h
    · simp only [storePut, if_neg h3, storeKeys, List.map_cons, List.mem_cons] at h ⊢
      rcases h with h | h
      · exact Or.inr (Or.inl h)
      · rcases ih h with h | h
        · exact Or.inl h
        · exact Or.inr (Or.inr h)

theorem storeKeys_nodup_storePut (s : Store) (k : List Nat) (v : String)
    (h : (storeKeys s).Nodup) : (storeKeys (storePut s k v)).Nodup := by
  induction s with
  | nil => simp [storePut, storeKeys]
  | cons p rest ih =>
    obtain ⟨k3, v3⟩ := p
    simp only [storeKeys, List.map_cons, List.nodup_cons] at h
    by_cases h3 : k3 = k
    · subst h3
      simpa [storePut, storeKeys] using h
    · simp only [storePut, if_neg h3, storeKeys, List.map_cons, List.nodup_cons]
      refine ⟨fun hm => ?_, ih h.2⟩
      rcases storeKeys_mem_storePut rest k k3 v hm with hh | hh
      · exact h3 hh
      · exact h.1 hh

theorem storePut_length_of_mem (s : Store) (k : List Nat) (v v2 : String)
    (h : storeGet s k = some v2) : (storePut s k v).length = s.length := by
  induction s with
  | nil => simp [storeGet] at h
  | cons p rest ih =>
    obtain ⟨k3, v3⟩ := p
    by_cases h3 : k3 = k
    · simp [storePut, h3]
    · simp only [storeGet, if_neg h3] at h
      simp [storePut, if_neg h3, ih h]

theorem inDb_addToDb_self (a : Album) (db : Store) :
    inDb a (addToDb a db) = true := by
  simp [inDb, addToDb, storeGet_storePut_self]

theorem inDb_addToDb_mono (a b : Album) (db : Store)
    (h : inDb a db = true) : inDb a (addToDb b db) = true := by
  by_cases hk : fingerprint a.Contents = fingerprint b.Contents
  · simp [inDb, addToDb, hk, storeGet_storePut_self]
  · simpa [inDb, addToDb, storeGet_storePut_other _ _ _ _ hk] using h

/-! ### The orchestrator -/

/-- The body of the `updateAlbumDb` loop (src/main.go lines 62-75):
skip non-directories; for a directory that is an album whose
fingerprint is absent, insert it. -/
def backfillStep (db : Store) (f : Entry) : Store :=
  if f.isDir = false then db
  else if isAlbum f then
    if inDb (newAlbum f) db then db else addToDb (newAlbum f) db
  else db

/-- `updateAlbumDb` (src/main.go lines 49-77): a failed `ReadDir` of the
music directory is fatal (`log.Fatalf`, modelled as `none`); otherwise
every listed entry is processed in order.  The function performs no
filesystem writes: its only effect is on the registry. -/
def updateAlbumDb (musicDir : Entry) (db : Store) : Option Store :=
  (readDir musicDir).map (fun files => files.foldl backfillStep db)

mutual
/-- The tree created under the target by a recursive `linkAlbum` call on
one source entry: files become hardlinks of the same name; a directory
is re-created (`os.Mkdir`, fresh inside the new parent) and its listing
copied, with the `ReadDir` error discarded, so an unreadable source
directory becomes an empty target directory.  Only applied to
directories, as in the source. -/
def linkTree : Entry → Entry
  | .file n => .file n
  | .dir n true cs => .dir n true (linkTreeList cs)
  | .dir n false _ => .dir n true []

/-- `linkTree` mapped over a child listing in order. -/
def linkTreeList : List Entry → List Entry
  | [] => []
  | e :: es => linkTree e :: linkTreeList es
end

/-- `linkAlbum` (src/main.go lines 175-202) acting on the target root's
listing: `os.Mkdir(targetDirPath)` fails (`log.Fatalf`, modelled as
`none`) when an entry of that name already exists; otherwise the source
tree is replicated and appears in the target listing. -/
def linkAlbum (source : Entry) (target : List Entry) : Option (List Entry) :=
  if target.any (fun t => t.name = source.name) then none
  else some (target ++ [linkTree source])

/-- The observable outcome of one `linkNewAlbums` run: whether a
`log.Fatal` inside `linkAlbum` aborted the run, the target root's
listing, the registry contents, and the three reported counters. -/
structure SyncOutcome : Type where
  fatal : Bool
  target : List Entry
  db : Store
  regFiles : Nat
  newAlbums : Nat
  oldAlbums : Nat

/-- The `for` loop of `linkNewAlbums` (src/main.go lines 152-169),
parametrised by the replication routine `link` so that an arbitrary
replication failure can be considered: non-directories bump `regFiles`;
a detected album absent from the registry is replicated and only then
inserted — a replication failure aborts the run (`log.Fatalf`) with the
registry untouched by this iteration; a known album bumps `oldAlbums`. -/
def syncLoop (link : Entry → List Entry → Option (List Entry)) :
    List Entry → List Entry → Store → Nat → Nat → Nat → SyncOutcome
  | [], t, db, rf, na, oa => ⟨false, t, db, rf, na, oa⟩
  | f :: rest, t, db, rf, na, oa =>
    if f.isDir = false then syncLoop link rest t db (rf + 1) na oa
    else if isAlbum f then
      if inDb (newAlbum f) db = false then
        match link f t with
        | none => ⟨true, t, db, rf, na, oa⟩
        | some t2 => syncLoop link rest t2 (addToDb (newAlbum f) db) rf (na + 1) oa
      else syncLoop link rest t db rf na (oa + 1)
    else syncLoop link rest t db rf na oa

/-- `linkNewAlbums` (src/main.go lines 141-172).  The `ReadDir` error on
the source root is discarded — `err` is immediately reassigned by the
`bolt.Open` call before the only `err != nil` check — so an unreadable
source root yields a nil listing and the loop runs zero times. -/
def linkNewAlbums (sourceDir : Entry) (target : List Entry) (db : Store) :
    SyncOutcome :=
  syncLoop linkAlbum ((readDir sourceDir).getD []) target db 0 0 0

/-- Number of non-directory entries of a listing (`regFiles`). -/
def countRegular (files : List Entry) : Nat :=
  (files.filter (fun f => f.isDir = false)).length

/-- Number of directory entries of a listing that are detected as
albums. -/
def countAlbums (files : List Entry) : Nat :=
  (files.filter (fun f => f.isDir && isAlbum f)).length

/-- The scanned world: the source root, the target root and the
registry store file. -/
structure World : Type where
  source : Entry
  target : Entry
  db : Store

/-- The back-fill phase of `main` (src/main.go line 43,
`updateAlbumDb(dest)`): the Go function reads directories and the
registry and writes only the registry, so the world's trees pass
through unchanged. -/
def backfill (w : World) : Option World :=
  (updateAlbumDb w.target w.db).map (fun db2 => { w with db := db2 })

/-! ### Lemmas about detection and the sync loop -/

theorem isDir_of_isAlbum {e : Entry} (h : isAlbum e = true) : e.isDir = true := by
  cases e with
  | file n => simp [isAlbum] at h
  | dir n r cs => simp [Entry.isDir]

theorem syncLoop_inDb_mono (link : Entry → List Entry → Option (List Entry))
    (files : List Entry) : ∀ t db rf na oa (a : Album), inDb a db = true →
    inDb a (syncLoop link files t db rf na oa).db = true := by
  induction files with
  | nil =>
    intro t db rf na oa a h
    simpa [syncLoop] using h
  | cons f rest ih =>
    intro t db rf na oa a h
    by_cases hd : f.isDir = false
    · simpa [syncLoop, hd] using ih t db (rf + 1) na oa a h
    · by_cases ha : isAlbum f
      · by_cases hin : inDb (newAlbum f) db = false
        · cases hlink : link f t with
          | none => simpa [syncLoop, hd, ha, hin, hlink] using h
          | some t2 =>
            simpa [syncLoop, hd, ha, hin, hlink] using
              ih t2 (addToDb (newAlbum f) db) rf (na + 1) oa a
                (inDb_addToDb_mono a (newAlbum f) db h)
        · simpa [syncLoop, hd, ha, hin] using ih t db rf na (oa + 1) a h
      · simpa [syncLoop, hd, ha] using ih t db rf na oa a h

theorem syncLoop_post (link : Entry → List Entry → Option (List Entry))
    (files : List Entry) : ∀ t db rf na oa,
    (syncLoop link files t db rf na oa).fatal = false →
    ∀ f ∈ files, isAlbum f = true →
      inDb (newAlbum f) (syncLoop link files t db rf na oa).db = true := by
  induction files with
  | nil =>
    intro t db rf na oa _ f hmem
    cases hmem
  | cons g rest ih =>
    intro t db rf na oa hfat f hmem halb
    rcases List.mem_cons.mp hmem with hfg | hmem2
    · subst hfg
      have hd : ¬ f.isDir = false := by simp [isDir_of_isAlbum halb]
      by_cases hin : inDb (newAlbum f) db = false
      · cases hlink : link f t with
        | none => simp [syncLoop, hd, halb, hin, hlink] at hfat
        | some t2 =>
          simpa [syncLoop, hd, halb, hin, hlink] using
            syncLoop_inDb_mono link rest t2 (addToDb (newAlbum f) db) rf
              (na + 1) oa (newAlbum f) (inDb_addToDb_self (newAlbum f) db)
      · have hin2 : inDb (newAlbum f) db = true := by
          revert hin
          cases inDb (newAlbum f) db <;> simp
        simpa [syncLoop, hd, halb, hin] using
          syncLoop_inDb_mono link rest t db rf na (oa + 1) (newAlbum f) hin2
    · by_cases hd : g.isDir = false
      · have hfat2 := hfat
        simp only [syncLoop, if_pos hd] at hfat2 ⊢
        exact ih t db (rf + 1) na oa hfat2 f hmem2 halb
      · by_cases ha : isAlbum g
        · by_cases hin : inDb (newAlbum g) db = false
          · cases hlink : link g t with
            | none => simp [syncLoop, hd, ha, hin, hlink] at hfat
            | some t2 =>
              have hfat2 := hfat
              simp only [syncLoop, if_neg hd, if_pos ha, if_pos hin, hlink] at hfat2 ⊢
              exact ih t2 (addToDb (newAlbum g) db) rf (na + 1) oa hfat2 f hmem2 halb
          · have hfat2 := hfat
            simp only [syncLoop, if_neg hd, if_pos ha, if_neg hin] at hfat2 ⊢
            exact ih t db rf na (oa + 1) hfat2 f hmem2 halb
        · have hfat2 := hfat
          simp only [syncLoop, if_neg hd, if_neg ha] at hfat2 ⊢
          exact ih t db rf na oa hfat2 f hmem2 halb

theorem syncLoop_all_known (link : Entry → List Entry → Option (List Entry))
    (files : List Entry) : ∀ t db rf na oa,
    (∀ f ∈ files, isAlbum f = true → inDb (newAlbum f) db = true) →
    syncLoop link files t db rf na oa =
      ⟨false, t, db, rf + countRegular files, na, oa + countAlbums files⟩ := by
  induction files with
  | nil =>
    intro t db rf na oa _
    simp [syncLoop, countRegular, countAlbums]
  | cons f rest ih =>
    intro t db rf na oa h
    have hrest : ∀ g ∈ rest, isAlbum g = true → inDb (newAlbum g) db = true :=
      fun g hg => h g (List.mem_cons_of_mem f hg)
    by_cases hd : f.isDir = false
    · rw [syncLoop, if_pos hd, ih t db (rf + 1) na oa hrest]
      simp [SyncOutcome.mk.injEq, countRegular, countAlbums, List.filter_cons, hd]
      omega
    · by_cases ha : isAlbum f
      · have hin : inDb (newAlbum f) db = true := h f (List.mem_cons_self f rest) ha
        have hin2 : ¬ inDb (newAlbum f) db = false := by simp [hin]
        rw [syncLoop, if_neg hd, if_pos ha, if_neg hin2, ih t db rf na (oa + 1) hrest]
        have hd2 : f.isDir = true := by
          revert hd
          cases f.isDir <;> simp
        simp [SyncOutcome.mk.injEq, countRegular, countAlbums, List.filter_cons, hd2, ha]
        omega
      · have hd2 : f.isDir = true := by
          revert hd
          cases f.isDir <;> simp
        rw [syncLoop, if_neg hd, if_neg ha, ih t db rf na oa hrest]
        simp [SyncOutcome.mk.injEq, countRegular, countAlbums, List.filter_cons, hd2, ha]

/-! ### Lemmas about the back-fill fold -/

theorem backfillStep_cases (db : Store) (f : Entry) :
    backfillStep db f = db ∨
      (f.isDir = true ∧ isAlbum f = true ∧ inDb (newAlbum f) db = false ∧
        backfillStep db f = addToDb (newAlbum f) db) := by
  by_cases hd : f.isDir = false
  · left
    simp [backfillStep, hd]
  · have hd2 : f.isDir = true := by
      revert hd
      cases f.isDir <;> simp
    by_cases ha : isAlbum f
    · by_cases hin : inDb (newAlbum f) db
      · left
        simp [backfillStep, hd, ha, hin]
      · right
        exact ⟨hd2, by simpa using ha, by simpa using hin,
          by simp [backfillStep, hd, ha, hin]⟩
    · left
      simp [backfillStep, hd, ha]

theorem storeGet_none_of_inDb_false {a : Album} {db : Store}
    (h : inDb a db = false) : storeGet db (fingerprint a.Contents) = none := by
  rw [inDb] at h
  cases hg : storeGet db (fingerprint a.Contents) with
  | none => rfl
  | some v =>
    rw [hg] at h
    simp at h

theorem backfillStep_preserve (db : Store) (f : Entry) (k : List Nat) (v : String)
    (h : storeGet db k = some v) : storeGet (backfillStep db f) k = some v := by
  rcases backfillStep_cases db f with he | ⟨_, _, hin, he⟩
  · rw [he]
    exact h
  · rw [he]
    by_cases hk : k = fingerprint (newAlbum f).Contents
    · rw [hk] at h
      rw [storeGet_none_of_inDb_false hin] at h
      cases h
    · rw [addToDb, storeGet_storePut_other db _ k _ hk]
      exact h

theorem foldl_backfill_preserve (files : List Entry) : ∀ db k v,
    storeGet db k = some v →
    storeGet (files.foldl backfillStep db) k = some v := by
  induction files with
  | nil =>
    intro db k v h
    simpa using h
  | cons f rest ih =>
    intro db k v h
    rw [List.foldl_cons]
    exact ih (backfillStep db f) k v (backfillStep_preserve db f k v h)

theorem foldl_backfill_new (files : List Entry) : ∀ db k,
    storeGet (files.foldl backfillStep db) k ≠ storeGet db k →
    ∃ f ∈ files, f.isDir = true ∧ isAlbum f = true ∧
      k = fingerprint (newAlbum f).Contents ∧ storeGet db k = none := by
  induction files with
  | nil =>
    intro db k h
    simp at h
  | cons f rest ih =>
    intro db k h
    rw [List.foldl_cons] at h
    by_cases hs : storeGet (backfillStep db f) k = storeGet db k
    · rw [← hs] at h
      obtain ⟨g, hg, hd, ha, hk, hnone⟩ := ih (backfillStep db f) k h
      rw [hs] at hnone
      exact ⟨g, List.mem_cons_of_mem f hg, hd, ha, hk, hnone⟩
    · rcases backfillStep_cases db f with he | ⟨hd, ha, hin, he⟩
      · exact absurd (by rw [he]) hs
      · have hk : k = fingerprint (newAlbum f).Contents := by
          by_contra hk2
          apply hs
          rw [he, addToDb]
          exact storeGet_storePut_other db _ k _ hk2
        have hnone : storeGet db k = none := by
          rw [hk]
          exact storeGet_none_of_inDb_false hin
        exact ⟨f, List.mem_cons_self f rest, hd, ha, hk, hnone⟩

/-! ### Lemmas about the detection scan -/

theorem isAlbumScan_first_dir (pre : List Entry) (d : Entry) (rest : List Entry)
    (hd : d.isDir = true)
    (hpre : ∀ e ∈ pre, e.isDir = false ∧ extname e.name ≠ ".flac") :
    isAlbumScan (pre ++ d :: rest) = isAlbum d := by
  induction pre with
  | nil =>
    cases d with
    | file n => simp [Entry.isDir] at hd
    | dir n r cs => simp [isAlbumScan]
  | cons e pre ih =>
    have he := hpre e (List.mem_cons_self e pre)
    cases e with
    | file m =>
      have hm : ¬ extname m = ".flac" := by simpa [Entry.name] using he.2
      rw [List.cons_append, isAlbumScan, if_neg hm]
      exact ih (fun g hg => hpre g (List.mem_cons_of_mem _ hg))
    | dir n r cs => simp [Entry.isDir] at he

theorem isAlbumScan_first_flac (pre : List Entry) (fn : String)
    (rest : List Entry) (hpre : ∀ e ∈ pre, e.isDir = false)
    (hflac : extname fn = ".flac") :
    isAlbumScan (pre ++ .file fn :: rest) = true := by
  induction pre with
  | nil => simp [isAlbumScan, hflac]
  | cons e pre ih =>
    have he := hpre e (List.mem_cons_self e pre)
    cases e with
    | file m =>
      by_cases hm : extname m = ".flac"
      · simp [isAlbumScan, hm]
      · rw [List.cons_append, isAlbumScan, if_neg hm]
        exact ih (fun g hg => hpre g (List.mem_cons_of_mem _ hg))
    | dir n r cs => simp [Entry.isDir] at he

theorem isAlbumScan_none (l : List Entry)
    (h : ∀ e ∈ l, e.isDir = false ∧ extname e.name ≠ ".flac") :
    isAlbumScan l = false := by
  induction l with
  | nil => simp [isAlbumScan]
  | cons e rest ih =>
    have he := h e (List.mem_cons_self e rest)
    cases e with
    | file m =>
      have hm : ¬ extname m = ".flac" := by simpa [Entry.name] using he.2
      rw [isAlbumScan, if_neg hm]
      exact ih (fun g hg => h g (List.mem_cons_of_mem _ hg))
    | dir n r cs => simp [Entry.isDir] at he

/-! ### The claims -/

/-- Claim C1: `isAlbum` inspects the immediate entries of a readable
directory in listing order.  The first entry that is a directory causes
recursion into that single subdirectory and its result is the final
answer, whatever the later siblings are; with no preceding subdirectory,
the first file with extension `.flac` yields `true`; a listing with no
subdirectory and no `.flac` file yields `false`. -/
theorem c1_isAlbum_listing_order :
    (∀ (n : String) (pre : List Entry) (d : Entry) (rest : List Entry),
      d.isDir = true →
      (∀ e ∈ pre, e.isDir = false ∧ extname e.name ≠ ".flac") →
      isAlbum (.dir n true (pre ++ d :: rest)) = isAlbum d)
    ∧ (∀ (n fn : String) (pre rest : List Entry),
      (∀ e ∈ pre, e.isDir = false) → extname fn = ".flac" →
      isAlbum (.dir n true (pre ++ .file fn :: rest)) = true)
    ∧ (∀ (n : String) (l : List Entry),
      (∀ e ∈ l, e.isDir = false ∧ extname e.name ≠ ".flac") →
      isAlbum (.dir n true l) = false) := by
  refine ⟨fun n pre d rest hd hpre => ?_, fun n fn pre rest hpre hflac => ?_,
    fun n l h => ?_⟩
  · rw [isAlbum]
    exact isAlbumScan_first_dir pre d rest hd hpre
  · rw [isAlbum]
    exact isAlbumScan_first_flac pre fn rest hpre hflac
  · rw [isAlbum]
    exact isAlbumScan_none l h

/-- Witness for C1 at concrete listings. -/
theorem c1_isAlbum_listing_order_witness :
    isAlbum (.dir "r" true ([.file "cover.jpg"] ++
        .dir "cd1" true [.file "x.flac"] :: [.file "y.flac"]))
      = isAlbum (.dir "cd1" true [.file "x.flac"])
    ∧ isAlbum (.dir "r2" true ([.file "cover.jpg"] ++ .file "y.flac" :: []))
      = true
    ∧ isAlbum (.dir "r3" true [.file "cover.jpg", .file "notes.txt"])
      = false := by
  refine ⟨c1_isAlbum_listing_order.1 "r" [.file "cover.jpg"]
      (.dir "cd1" true [.file "x.flac"]) [.file "y.flac"] (by decide) ?_,
    c1_isAlbum_listing_order.2.1 "r2" "y.flac" [.file "cover.jpg"] []
      ?_ (by decide),
    c1_isAlbum_listing_order.2.2 "r3" [.file "cover.jpg", .file "notes.txt"] ?_⟩
  · intro e he
    simp only [List.mem_singleton] at he
    subst he
    exact ⟨by decide, by decide⟩
  · intro e he
    simp only [List.mem_singleton] at he
    subst he
    decide
  · intro e he
    simp only [List.mem_cons, List.mem_singleton, List.not_mem_nil, or_false] at he
    rcases he with he | he <;> subst he <;> exact ⟨by decide, by decide⟩

/-- Claim C2: a second `linkNewAlbums` run over an unchanged source,
started from the state a completed first run left behind, links nothing:
it ends non-fatally with the target listing and registry unchanged,
`newAlbums = 0`, and every detected album counted in `oldAlbums`. -/
theorem c2_syncNew_idempotent :
    ∀ (src : Entry) (t : List Entry) (db : Store),
      (linkNewAlbums src t db).fatal = false →
      linkNewAlbums src (linkNewAlbums src t db).target (linkNewAlbums src t db).db
        = ⟨false, (linkNewAlbums src t db).target, (linkNewAlbums src t db).db,
            countRegular ((readDir src).getD []), 0,
            countAlbums ((readDir src).getD [])⟩ := by
  intro src t db hfat
  simp only [linkNewAlbums] at hfat ⊢
  rw [syncLoop_all_known linkAlbum ((readDir src).getD []) _ _ 0 0 0
    (fun f hf ha => syncLoop_post linkAlbum ((readDir src).getD [])
      t db 0 0 0 hfat f hf ha)]
  simp

/-- Witness for C2: one source album, empty target and registry. -/
theorem c2_syncNew_idempotent_witness :
    (linkNewAlbums (.dir "s" true [.dir "A" true [.file "t.flac"]]) [] []).fatal
      = false
    ∧ linkNewAlbums (.dir "s" true [.dir "A" true [.file "t.flac"]])
        (linkNewAlbums (.dir "s" true [.dir "A" true [.file "t.flac"]]) [] []).target
        (linkNewAlbums (.dir "s" true [.dir "A" true [.file "t.flac"]]) [] []).db
      = ⟨false,
          (linkNewAlbums (.dir "s" true [.dir "A" true [.file "t.flac"]]) [] []).target,
          (linkNewAlbums (.dir "s" true [.dir "A" true [.file "t.flac"]]) [] []).db,
          countRegular ((readDir (.dir "s" true [.dir "A" true [.file "t.flac"]])).getD []),
          0,
          countAlbums ((readDir (.dir "s" true [.dir "A" true [.file "t.flac"]])).getD [])⟩ := by
  have ha : isAlbum (.dir "A" true [.file "t.flac"]) = true := by decide
  have hfat : (linkNewAlbums (.dir "s" true [.dir "A" true [.file "t.flac"]]) [] []).fatal
      = false := by
    simp [linkNewAlbums, readDir, syncLoop, Entry.isDir, ha, inDb, storeGet, linkAlbum]
  exact ⟨hfat, c2_syncNew_idempotent (.dir "s" true [.dir "A" true [.file "t.flac"]]) [] [] hfat⟩

/-- Claim C3: after an `addToDb` of an album, `inDb` of the same album
is true under the same handle, and still true under a handle opened
later on the store file the first handle's close left behind. -/
theorem c3_registry_roundtrip :
    ∀ (a : Album) (db : Store),
      inDb a (addToDb a db) = true
      ∧ inDb a (openDb (closeDb (addToDb a db))) = true :=
  fun a db => ⟨inDb_addToDb_self a db, inDb_addToDb_self a db⟩

/-- Claim C4: the fingerprint is deterministic, and injective over
ordered content sequences: distinct sequences (in order, count or any
name) get distinct fingerprints. -/
theorem c4_fingerprint_deterministic_injective :
    (∀ l : List String, fingerprint l = fingerprint l)
    ∧ ∀ l1 l2 : List String, l1 ≠ l2 → fingerprint l1 ≠ fingerprint l2 :=
  ⟨fun _ => rfl, fun _ _ hne heq => hne (fingerprint_inj heq)⟩

/-- Witness for C4: two orderings of the same two names. -/
theorem c4_fingerprint_deterministic_injective_witness :
    (["a", "b"] : List String) ≠ ["b", "a"]
    ∧ fingerprint ["a", "b"] ≠ fingerprint ["b", "a"] :=
  ⟨by decide, c4_fingerprint_deterministic_injective.2 ["a", "b"] ["b", "a"] (by decide)⟩

/-- Claim C5 evidence.  The true parts: an unreadable library root is
fatal in `updateAlbumDb`, and an unreadable nested directory is treated
as not an album while the rest of the scan proceeds (here the later
sibling album is still linked).  The failing part: an unreadable source
root does NOT abort `linkNewAlbums` — its `ReadDir` error is shadowed by
the subsequent `bolt.Open` assignment to `err` before the only check, so
the run completes normally over an empty listing. -/
theorem c5_unreadable_root_evidence :
    updateAlbumDb (.dir "library" false []) [] = none
    ∧ linkNewAlbums (.dir "downloads" false []) [] [] = ⟨false, [], [], 0, 0, 0⟩
    ∧ isAlbum (.dir "bad" false [.file "x.flac"]) = false
    ∧ linkNewAlbums
        (.dir "src" true
          [.dir "bad" false [.file "x.flac"], .dir "A" true [.file "y.flac"]])
        [] []
      = ⟨false, [.dir "A" true [.file "y.flac"]],
          [(fingerprint ["y.flac"], "A")], 0, 1, 0⟩ := by
  have ha : isAlbum (.dir "A" true [.file "y.flac"]) = true := by decide
  have hb : isAlbum (.dir "bad" false [.file "x.flac"]) = false := by decide
  refine ⟨rfl, rfl, hb, ?_⟩
  simp [linkNewAlbums, readDir, syncLoop, Entry.isDir, ha, hb, inDb, storeGet,
    linkAlbum, addToDb, storePut, newAlbum, Entry.name, linkTree, linkTreeList]

/-- Claim C6: the registry operations' handling of a gob encoding error:
`inDb` aborts fatally producing no answer, `addToDb` returns the error
before any `Put`; under the real, never-failing encoder they compute
`inDb` and `addToDb`. -/
theorem c6_encode_error_aborts :
    (∀ (enc : List String → Except String (List Nat)) (a : Album) (db : Store)
      (e : String), enc a.Contents = .error e →
      inDbE enc a db = none ∧ addToDbE enc a db = .error e)
    ∧ (∀ (a : Album) (db : Store),
      inDbE (fun l => .ok (fingerprint l)) a db = some (inDb a db)
      ∧ addToDbE (fun l => .ok (fingerprint l)) a db = .ok (addToDb a db)) := by
  constructor
  · intro enc a db e h
    constructor <;> simp [inDbE, addToDbE, h]
  · intro a db
    constructor <;> simp [inDbE, addToDbE, inDb, addToDb]

/-- Witness for C6 with an encoder that fails on the given contents. -/
theorem c6_encode_error_aborts_witness :
    ((fun _ : List String => (Except.error "gob" : Except String (List Nat)))
        (Album.mk "A" ["x.flac"]).Contents = .error "gob")
    ∧ inDbE (fun _ => .error "gob") (Album.mk "A" ["x.flac"]) [] = none
    ∧ addToDbE (fun _ => .error "gob") (Album.mk "A" ["x.flac"]) [] = .error "gob" := by
  have h := c6_encode_error_aborts.1 (fun _ => .error "gob")
    (Album.mk "A" ["x.flac"]) [] "gob" rfl
  exact ⟨rfl, h.1, h.2⟩

/-- Claim C7: during a sync run an album is registered only after its
replication succeeded.  If the replication of a new album fails, the run
aborts at once with target listing and registry exactly as they were
before that album; and a fatal run always exhibits a detected album
whose fingerprint is absent from the final registry. -/
theorem c7_replicate_before_register :
    (∀ (link : Entry → List Entry → Option (List Entry)) (f : Entry)
      (rest t : List Entry) (db : Store) (rf na oa : Nat),
      isAlbum f = true → inDb (newAlbum f) db = false → link f t = none →
      syncLoop link (f :: rest) t db rf na oa = ⟨true, t, db, rf, na, oa⟩)
    ∧ (∀ (link : Entry → List Entry → Option (List Entry)) (files t : List Entry)
      (db : Store) (rf na oa : Nat),
      (syncLoop link files t db rf na oa).fatal = true →
      ∃ f ∈ files, isAlbum f = true ∧
        inDb (newAlbum f) (syncLoop link files t db rf na oa).db = false) := by
  constructor
  · intro link f rest t db rf na oa ha hin hlink
    have hd : ¬ f.isDir = false := by simp [isDir_of_isAlbum ha]
    simp [syncLoop, hd, ha, hin, hlink]
  · intro link files
    induction files with
    | nil =>
      intro t db rf na oa hfat
      simp [syncLoop] at hfat
    | cons f rest ih =>
      intro t db rf na oa hfat
      by_cases hd : f.isDir = false
      · simp only [syncLoop, if_pos hd] at hfat ⊢
        obtain ⟨g, hg, ha, hdb⟩ := ih t db (rf + 1) na oa hfat
        exact ⟨g, List.mem_cons_of_mem _ hg, ha, hdb⟩
      · by_cases ha : isAlbum f
        · by_cases hin : inDb (newAlbum f) db = false
          · cases hlink : link f t with
            | none =>
              refine ⟨f, List.mem_cons_self f rest, ha, ?_⟩
              simp [syncLoop, hd, ha, hin, hlink]
            | some t2 =>
              simp only [syncLoop, if_neg hd, if_pos ha, if_pos hin, hlink] at hfat ⊢
              obtain ⟨g, hg, hga, hdb⟩ :=
                ih t2 (addToDb (newAlbum f) db) rf (na + 1) oa hfat
              exact ⟨g, List.mem_cons_of_mem _ hg, hga, hdb⟩
          · simp only [syncLoop, if_neg hd, if_pos ha, if_neg hin] at hfat ⊢
            obtain ⟨g, hg, hga, hdb⟩ := ih t db rf na (oa + 1) hfat
            exact ⟨g, List.mem_cons_of_mem _ hg, hga, hdb⟩
        · simp only [syncLoop, if_neg hd, if_neg ha] at hfat ⊢
          obtain ⟨g, hg, hga, hdb⟩ := ih t db rf na oa hfat
          exact ⟨g, List.mem_cons_of_mem _ hg, hga, hdb⟩

/-- Witness for C7: a replication that fails leaves the registry empty. -/
theorem c7_replicate_before_register_witness :
    isAlbum (.dir "A" true [.file "x.flac"]) = true
    ∧ inDb (newAlbum (.dir "A" true [.file "x.flac"])) [] = false
    ∧ syncLoop (fun _ _ => none) [.dir "A" true [.file "x.flac"]] [] [] 0 0 0
        = ⟨true, [], [], 0, 0, 0⟩ := by
  have h1 : isAlbum (.dir "A" true [.file "x.flac"]) = true := by decide
  have h2 : inDb (newAlbum (.dir "A" true [.file "x.flac"])) [] = false := by
    simp [inDb, storeGet]
  exact ⟨h1, h2, c7_replicate_before_register.1 (fun _ _ => none)
    (.dir "A" true [.file "x.flac"]) [] [] [] 0 0 0 h1 h2 rfl⟩

/-- Claim C8: registry fingerprints are unique keys: an insert
overwrites the stored name at an existing fingerprint instead of
failing, keeps the key list duplicate-free, and adds no entry when the
key already exists. -/
theorem c8_registry_unique_keys :
    ∀ (a : Album) (db : Store),
      storeGet (addToDb a db) (fingerprint a.Contents) = some a.DirName
      ∧ ((storeKeys db).Nodup → (storeKeys (addToDb a db)).Nodup)
      ∧ (inDb a db = true → (addToDb a db).length = db.length) := by
  intro a db
  refine ⟨storeGet_storePut_self db _ _,
    fun h => storeKeys_nodup_storePut db _ _ h, fun h => ?_⟩
  rw [inDb] at h
  cases hg : storeGet db (fingerprint a.Contents) with
  | none =>
    rw [hg] at h
    simp at h
  | some v => exact storePut_length_of_mem db _ _ v hg

/-- Witness for C8: inserting over an existing fingerprint. -/
theorem c8_registry_unique_keys_witness :
    (storeKeys [(fingerprint ["x.flac"], "A1")]).Nodup
    ∧ inDb (Album.mk "A2" ["x.flac"]) [(fingerprint ["x.flac"], "A1")] = true
    ∧ storeGet (addToDb (Album.mk "A2" ["x.flac"]) [(fingerprint ["x.flac"], "A1")])
        (fingerprint ["x.flac"]) = some "A2"
    ∧ (storeKeys (addToDb (Album.mk "A2" ["x.flac"])
        [(fingerprint ["x.flac"], "A1")])).Nodup
    ∧ (addToDb (Album.mk "A2" ["x.flac"]) [(fingerprint ["x.flac"], "A1")]).length
        = 1 := by
  have h1 : (storeKeys [(fingerprint ["x.flac"], "A1")]).Nodup := by
    simp [storeKeys]
  have h2 : inDb (Album.mk "A2" ["x.flac"]) [(fingerprint ["x.flac"], "A1")] = true := by
    simp [inDb, storeGet]
  refine ⟨h1, h2,
    (c8_registry_unique_keys (Album.mk "A2" ["x.flac"]) [(fingerprint ["x.flac"], "A1")]).1,
    (c8_registry_unique_keys (Album.mk "A2" ["x.flac"]) [(fingerprint ["x.flac"], "A1")]).2.1 h1,
    ?_⟩
  have h3 := (c8_registry_unique_keys (Album.mk "A2" ["x.flac"])
    [(fingerprint ["x.flac"], "A1")]).2.2 h2
  simpa using h3

/-- Claim C9: `updateAlbumDb` replicates nothing: the source and target
trees pass through unchanged, every existing registry entry survives
with its value, and every new registry key is the fingerprint of a
detected album of the library root that was previously absent. -/
theorem c9_backfill_no_replication :
    ∀ (w w2 : World), backfill w = some w2 →
      w2.source = w.source ∧ w2.target = w.target
      ∧ (∀ k v, storeGet w.db k = some v → storeGet w2.db k = some v)
      ∧ (∀ k, storeGet w2.db k ≠ storeGet w.db k →
          ∃ f ∈ (readDir w.target).getD [], f.isDir = true ∧ isAlbum f = true ∧
            k = fingerprint (newAlbum f).Contents ∧ storeGet w.db k = none) := by
  intro w w2 h
  rw [backfill, updateAlbumDb] at h
  cases hr : readDir w.target with
  | none =>
    rw [hr] at h
    cases h
  | some files =>
    rw [hr] at h
    simp only [Option.map_some', Option.some.injEq] at h
    subst h
    refine ⟨rfl, rfl, fun k v hk => foldl_backfill_preserve files w.db k v hk,
      fun k hk => ?_⟩
    obtain ⟨f, hf, hd, ha, hfp, hnone⟩ := foldl_backfill_new files w.db k hk
    exact ⟨f, by simpa [hr] using hf, hd, ha, hfp, hnone⟩

/-- Witness for C9: an empty library root over a one-entry registry. -/
theorem c9_backfill_no_replication_witness :
    backfill ⟨.dir "s" true [], .dir "t" true [], [(fingerprint ["x.flac"], "A")]⟩
      = some ⟨.dir "s" true [], .dir "t" true [], [(fingerprint ["x.flac"], "A")]⟩
    ∧ (World.mk (.dir "s" true []) (.dir "t" true [])
        [(fingerprint ["x.flac"], "A")]).target = .dir "t" true []
    ∧ storeGet [(fingerprint ["x.flac"], "A")] (fingerprint ["x.flac"]) = some "A" := by
  have h := c9_backfill_no_replication
    ⟨.dir "s" true [], .dir "t" true [], [(fingerprint ["x.flac"], "A")]⟩
    ⟨.dir "s" true [], .dir "t" true [], [(fingerprint ["x.flac"], "A")]⟩ rfl
  exact ⟨rfl, h.2.1, h.2.2.1 (fingerprint ["x.flac"]) "A" (by simp [storeGet])⟩

/-- Claim C10: `newAlbum` never fails: `DirName` is always the base
name; a failed directory read is ignored and gives empty `Contents`, so
two unreadable album directories share a fingerprint and the second is
deduplicated against the first. -/
theorem c10_newAlbum_unreadable_dedup :
    ∀ (e1 e2 : Entry) (db : Store),
      (newAlbum e1).DirName = e1.name
      ∧ (readDir e1 = none → (newAlbum e1).Contents = [])
      ∧ (readDir e1 = none → readDir e2 = none →
          fingerprint (newAlbum e1).Contents = fingerprint (newAlbum e2).Contents
          ∧ inDb (newAlbum e2) (addToDb (newAlbum e1) db) = true) := by
  intro e1 e2 db
  refine ⟨rfl, fun h1 => by simp [newAlbum, h1], fun h1 h2 => ?_⟩
  have hc1 : (newAlbum e1).Contents = [] := by simp [newAlbum, h1]
  have hc2 : (newAlbum e2).Contents = [] := by simp [newAlbum, h2]
  constructor
  · rw [hc1, hc2]
  · rw [inDb, addToDb, hc1, hc2, storeGet_storePut_self]
    rfl

/-- Witness for C10: two distinct unreadable album directories. -/
theorem c10_newAlbum_unreadable_dedup_witness :
    readDir (.dir "a" false [.file "x"]) = none
    ∧ readDir (.dir "b" false []) = none
    ∧ (newAlbum (.dir "a" false [.file "x"])).DirName = "a"
    ∧ (newAlbum (.dir "a" false [.file "x"])).Contents = []
    ∧ fingerprint (newAlbum (.dir "a" false [.file "x"])).Contents
        = fingerprint (newAlbum (.dir "b" false [])).Contents
    ∧ inDb (newAlbum (.dir "b" false []))
        (addToDb (newAlbum (.dir "a" false [.file "x"])) []) = true := by
  have h := c10_newAlbum_unreadable_dedup (.dir "a" false [.file "x"])
    (.dir "b" false []) []
  exact ⟨rfl, rfl, h.1, h.2.1 rfl, (h.2.2 rfl rfl).1, (h.2.2 rfl rfl).2⟩

end Flaclink
